import Mathlib

/-!
Verification of the Merkle-tree / MMCS notebook (src/merkle-tree/merkle-tree.ipynb).

The notebook's code cell defines a global `hash(data) = sha256(data.encode()).hexdigest()`
and a `MerkleTree` class over a list of string leaves.  The spec (section 1) declares the
hash primitive an external black box, so the whole development is parametrised by an
arbitrary `hash : String → String`; concrete evaluations instantiate it with the injective
encoder `hashC s = "H(" ++ s ++ ")"`.

Translation notes (imperative to functional):
- `build_tree`'s `for i in range(0, len, 2)` pairing loop with
  `right = current_level[i+1] if i+1 < len else left` is `nextLevel` (two-element list
  pattern; the lone odd tail is the `[a]` arm, hashed with itself).
- `build_tree`'s recursion (`if len(current_level) == 1: return` then append and recurse)
  is rendered twice: `buildLevelsF` is the direct translation, with a fuel argument
  standing for Python's recursion budget (`none` = the recursion never returns, which in
  CPython surfaces as `RecursionError`); `buildLevels` is the total version used by the
  other theorems, equal to the fuel version on every input on which the Python terminates
  (`buildLevelsF_eq_buildLevels`).  Note the Python guard is `== 1`, so the empty level
  recurses forever; `buildLevels` stops there, which is why the bridge lemma asks for a
  nonempty level.
- `get_proof`'s `for level in range(len(self.tree) - 1)` loop walking `current_index`
  upward is `getProofLoop` (the `[_]` arm is the excluded root level); every subscript
  `current_level[sibling_index]` in the Python is guarded by `sibling_index < len`, so for
  a natural-number index the method can neither raise nor go out of bounds, and the
  translation is total.
- `verify_proof`'s fold over `(position, sibling_hash)` pairs is `verifyFold`;
  the Python compares `position == "left"` and treats anything else as right, which the
  `if pos = "left"` test mirrors.
-/

namespace MerkleNotebook

/-- One pairing pass of `build_tree`: combine consecutive pairs with `hash(left+right)`;
an unpaired final element is hashed with itself (`right = left` branch of the source). -/
def nextLevel (hash : String → String) : List String → List String
  | [] => []
  | [a] => [hash (a ++ a)]
  | a :: b :: t => hash (a ++ b) :: nextLevel hash t

/-- Direct translation of `build_tree`: returns the levels strictly above the argument
level, with `fuel` bounding the recursion depth (Python's recursion limit).  `none` means
the budget was exhausted, i.e. the Python recursion does not return within that depth. -/
def buildLevelsF (hash : String → String) : Nat → List String → Option (List (List String))
  | 0, _ => none
  | fuel + 1, l =>
    if l.length = 1 then some []
    else
      match buildLevelsF hash fuel (nextLevel hash l) with
      | none => none
      | some rest => some (nextLevel hash l :: rest)

/-- Total rendering of `build_tree` used throughout: structural recursion on a fuel that
is fixed to the level's length (enough, since each pass at least halves a level of two
or more).  Agrees with `buildLevelsF` on every nonempty level. -/
def buildLevelsAux (hash : String → String) : Nat → List String → List (List String)
  | 0, _ => []
  | n + 1, l =>
    if l.length ≤ 1 then []
    else nextLevel hash l :: buildLevelsAux hash n (nextLevel hash l)

def buildLevels (hash : String → String) (l : List String) : List (List String) :=
  buildLevelsAux hash l.length l

/-- `__init__`: hash every leaf (fixed-size hash outputs as leaves). -/
def mkLeaves (hash : String → String) (leaves : List String) : List String :=
  leaves.map hash

/-- `__init__`: `self.tree = [self.leaves]` followed by `build_tree(self.leaves)`,
which appends the higher levels. -/
def mkTree (hash : String → String) (leaves : List String) : List (List String) :=
  mkLeaves hash leaves :: buildLevels hash (mkLeaves hash leaves)

/-- Fuel-explicit constructor, for the empty-input analysis: `none` when `build_tree`
does not return within the given recursion budget. -/
def mkTreeF (hash : String → String) (fuel : Nat) (leaves : List String) :
    Option (List (List String)) :=
  (buildLevelsF hash fuel (mkLeaves hash leaves)).map (fun rest => mkLeaves hash leaves :: rest)

/-- `get_root`: `self.tree[-1][0]`. -/
def getRoot (t : List (List String)) : String :=
  (t.getLastD []).headD ""

/-- The loop of `get_proof`: one iteration per level except the last (root) level.
`sib` is `current_index - 1` (odd) or `current_index + 1` (even); an entry is appended
only when `sib < len(current_level)`; the index always halves. -/
def getProofLoop : List (List String) → Nat → List (String × String)
  | [], _ => []
  | [_], _ => []
  | cur :: next :: rest, i =>
    (if (if i % 2 = 1 then i - 1 else i + 1) < cur.length then
      [((if i % 2 = 1 then "left" else "right"),
        cur.getD (if i % 2 = 1 then i - 1 else i + 1) "")]
    else []) ++ getProofLoop (next :: rest) (i / 2)

def getProof (t : List (List String)) (leafIndex : Nat) : List (String × String) :=
  getProofLoop t leafIndex

/-- The fold of `verify_proof`: `current_hash` rebuilt along the proof. -/
def verifyFold (hash : String → String) : String → List (String × String) → String
  | cur, [] => cur
  | cur, (pos, sib) :: rest =>
    verifyFold hash (hash (if pos = "left" then sib ++ cur else cur ++ sib)) rest

/-- `verify_proof`: start from `hash(leaf)`, fold the proof, compare with the root.
No length or shape validation is performed by the source. -/
def verifyProof (hash : String → String) (t : List (List String))
    (leaf : String) (proof : List (String × String)) : Bool :=
  verifyFold hash (hash leaf) proof == getRoot t

/-- Concrete stand-in for the external sha256 hex digest: an injective encoder, used
for evaluating the definitions at concrete inputs. -/
def hashC : String → String := fun s => "H(" ++ s ++ ")"

/-- Halving by structural recursion (equal to division by two, `half_eq_div2`).  The
spec-modelled definitions below use it, and `isOdd`, in place of `Nat.div` and `Nat.mod`
so that they evaluate by definitional unfolding even over a symbolic hash. -/
def half : Nat → Nat
  | 0 => 0
  | 1 => 0
  | n + 2 => half n + 1

/-- Parity by structural recursion (`isOdd_eq` relates it to `Nat.mod`). -/
def isOdd : Nat → Bool
  | 0 => false
  | 1 => true
  | n + 2 => isOdd n

/-- Modelled from the spec: structurally recursive ceiling base-2 logarithm, the
matrix-to-depth bucketing measure of spec section 4.3 (`ceil(log2(height))`). -/
def clog2Aux : Nat → Nat → Nat
  | 0, _ => 0
  | fuel + 1, n => if n ≤ 1 then 0 else clog2Aux fuel (half (n + 1)) + 1

def clog2 (n : Nat) : Nat := clog2Aux n n

/-- Modelled from the spec (section 4.3): the digests a batch injects at tree depth `d` —
the row-digest levels of every matrix whose `ceil(log2(height))` equals `d`, concatenated
in batch order.  The MMCS builder itself is absent from the source (the notebook only
describes it in markdown), so this layer follows the spec's words. -/
def injAt (hash : String → String) (batch : List (List String)) (d : Nat) : List String :=
  ((batch.filter (fun m => clog2 m.length = d)).map (fun m => m.map hash)).flatten

/-- Modelled from the spec (section 4.3): descend from the deepest depth to depth 0,
each level being the digests injected at that depth concatenated with the pairwise
combinations propagated up from the depth below. -/
def mmcsDescend (hash : String → String) (batch : List (List String)) :
    Nat → List String → List (List String)
  | 0, frontier => [frontier]
  | d + 1, frontier =>
    frontier :: mmcsDescend hash batch d (injAt hash batch d ++ nextLevel hash frontier)

/-- Modelled from the spec: the maximal matrix depth in the batch. -/
def mmcsMaxDepth (batch : List (List String)) : Nat :=
  (batch.map (fun m => clog2 m.length)).foldr max 0

/-- Modelled from the spec (section 4.3): the merged level sequence, bottom level first.
After all matrices have joined, the combined frontier is collapsed to a single root by
the plain pairing passes. -/
def mmcsLevels (hash : String → String) (batch : List (List String)) :
    List (List String) :=
  let d := mmcsMaxDepth batch
  let descended := mmcsDescend hash batch d (injAt hash batch d)
  descended ++ buildLevels hash (descended.getLastD [])

/-- Modelled from the spec (section 4.3): how far the propagated nodes are shifted at
each ascent, i.e. the count of digests injected at the level above.  The list runs in
step with the levels of the descent, one entry per ascent; above all injection depths
(the final collapse to the root) no digests are injected, which the proof walk reads as
`headD 0` of the exhausted list. -/
def mmcsOffsetsAux (hash : String → String) (batch : List (List String)) : Nat → List Nat
  | 0 => []
  | d + 1 => (injAt hash batch d).length :: mmcsOffsetsAux hash batch d

def mmcsOffsets (hash : String → String) (batch : List (List String)) : List Nat :=
  mmcsOffsetsAux hash batch (mmcsMaxDepth batch)

/-- Modelled from the spec (section 4.4): the sibling walk of `openBatch`.  Unlike the
source's `get_proof`, the spec's walker records the unpaired last element of an
odd-length level as its own sibling (duplicate-last-node rule), so exactly one entry is
emitted per level below the root; the index at the next level is shifted by the number
of digests injected there. -/
def mmcsProofLoop : List (List String) → List Nat → Nat → List (String × String)
  | [], _, _ => []
  | [_], _, _ => []
  | cur :: next :: rest, offs, i =>
    (if (if isOdd i then i - 1 else i + 1) < cur.length then
      ((if isOdd i then "left" else "right"),
        cur.getD (if isOdd i then i - 1 else i + 1) "")
    else ("right", cur.getD i "")) ::
      mmcsProofLoop (next :: rest) offs.tail (offs.headD 0 + half i)

/-- Modelled from the spec (section 4.4): `openBatch` for `(matrixIndex, rowIndex)` —
start at the matrix's own leaf level (depth `ceil(log2(height))`, i.e. level index
`dmax - depth`), positioned after the rows of earlier matrices injected at the same
depth, and walk the merged levels to the root. -/
def mmcsOpen (hash : String → String) (batch : List (List String))
    (matrixIndex rowIndex : Nat) : List (String × String) :=
  let dmax := mmcsMaxDepth batch
  let d := clog2 ((batch.getD matrixIndex []).length)
  let start := dmax - d
  let pos := rowIndex +
    (((batch.take matrixIndex).filter (fun m => clog2 m.length = d)).map
      (fun m => m.length)).sum
  mmcsProofLoop ((mmcsLevels hash batch).drop start)
    ((mmcsOffsets hash batch).drop start) pos

/-- Modelled from the spec (sections 4.5 and 6): the proof length the verifier expects
for a matrix, derived from the committed height metadata. -/
def mmcsExpectedLen (hash : String → String) (batch : List (List String))
    (matrixIndex : Nat) : Nat :=
  (mmcsLevels hash batch).length - 1 -
    (mmcsMaxDepth batch - clog2 ((batch.getD matrixIndex []).length))

/-- Modelled from the spec (section 4.5): `verifyBatch` — reject a proof whose length
differs from the structurally expected depth, otherwise fold and compare to the root. -/
def mmcsVerify (hash : String → String) (root : String) (expectedLen : Nat)
    (row : String) (proof : List (String × String)) : Bool :=
  proof.length == expectedLen && (verifyFold hash (hash row) proof == root)

/-- Modelled from the spec: a batch of three matrices of heights 8, 4 and 4 (rows kept
opaque, as one pre-serialized string per row), the shape of the mixed-height example in
spec section 8. -/
def demoBatch (r : Fin 8 → String) (s t : Fin 4 → String) : List (List String) :=
  [[r 0, r 1, r 2, r 3, r 4, r 5, r 6, r 7], [s 0, s 1, s 2, s 3], [t 0, t 1, t 2, t 3]]

/-- Modelled from the spec: the invariant tying consecutive merged levels together —
each level above the bottom is an injected block followed by the pairwise combination of
the level below, and the offset list records the injected block's size at each ascent. -/
def ChainI (hash : String → String) : List (List String) → List Nat → Prop
  | cur :: next :: rest, offs =>
    (∃ inj, next = inj ++ nextLevel hash cur ∧ offs.headD 0 = inj.length) ∧
      ChainI hash (next :: rest) offs.tail
  | _, _ => True

theorem nextLevel_length (hash : String → String) :
    (l : List String) → (nextLevel hash l).length = (l.length + 1) / 2
  | [] => rfl
  | [_] => by simp [nextLevel]
  | _ :: b :: t => by
    have ih := nextLevel_length hash t
    simp only [nextLevel, List.length_cons, ih]
    omega

theorem buildLevelsAux_fuel (hash : String → String) :
    (n : Nat) → (m : Nat) → (l : List String) → l.length ≤ n → l.length ≤ m →
      buildLevelsAux hash n l = buildLevelsAux hash m l
  | 0, 0, _, _, _ => rfl
  | 0, _ + 1, l, hn, _ => by
    have hl : l.length = 0 := Nat.le_zero.mp hn
    simp [buildLevelsAux, hl]
  | _ + 1, 0, l, _, hm => by
    have hl : l.length = 0 := Nat.le_zero.mp hm
    simp [buildLevelsAux, hl]
  | n + 1, m + 1, l, hn, hm => by
    simp only [buildLevelsAux]
    by_cases h1 : l.length ≤ 1
    · simp [h1]
    · simp only [h1, if_false]
      have hlen := nextLevel_length hash l
      have ih := buildLevelsAux_fuel hash n m (nextLevel hash l)
        (by omega) (by omega)
      rw [ih]

theorem buildLevels_small (hash : String → String) (l : List String)
    (h : l.length ≤ 1) : buildLevels hash l = [] := by
  unfold buildLevels
  cases hl : l.length with
  | zero => rfl
  | succ n =>
    have : n = 0 := by omega
    subst this
    simp [buildLevelsAux, hl]

theorem buildLevels_step (hash : String → String) (l : List String)
    (h : 1 < l.length) : buildLevels hash l = nextLevel hash l :: buildLevels hash (nextLevel hash l) := by
  unfold buildLevels
  have hlen := nextLevel_length hash l
  obtain ⟨n, hn⟩ : ∃ n, l.length = n + 1 := ⟨l.length - 1, by omega⟩
  rw [hn]
  simp only [buildLevelsAux, hn.symm]
  rw [if_neg (by omega)]
  rw [buildLevelsAux_fuel hash n (nextLevel hash l).length (nextLevel hash l)
    (by omega) (le_refl _)]

/-- Bridge between the fuel-explicit translation of `build_tree` and the total version:
on any nonempty level the Python recursion terminates (within a budget no larger than the
level's length) and computes `buildLevels`. -/
theorem buildLevelsF_eq_buildLevels (hash : String → String) :
    (n : Nat) → (l : List String) → 1 ≤ l.length → l.length ≤ n →
      buildLevelsF hash n l = some (buildLevels hash l)
  | 0, _, h1, hn => by omega
  | n + 1, l, h1, hn => by
    simp only [buildLevelsF]
    by_cases he : l.length = 1
    · rw [if_pos he, buildLevels_small hash l (by omega)]
    · rw [if_neg he]
      have hlen := nextLevel_length hash l
      have ih := buildLevelsF_eq_buildLevels hash n (nextLevel hash l)
        (by omega) (by omega)
      rw [ih, buildLevels_step hash l (by omega)]

/-- Chain shape of the constructed tree: each stored level is one `nextLevel` pass over
the previous one. -/
theorem tree_chain (hash : String → String) :
    (n : Nat) → (l : List String) → l.length ≤ n → 1 ≤ l.length →
      (k : Nat) → k + 1 < (l :: buildLevels hash l).length →
        (l :: buildLevels hash l).getD (k + 1) [] =
          nextLevel hash ((l :: buildLevels hash l).getD k []) := by
  intro n
  induction n with
  | zero => intro l hn h1 k hk; omega
  | succ n ih =>
    intro l hn h1 k hk
    by_cases hs : l.length ≤ 1
    · rw [buildLevels_small hash l hs] at hk
      simp at hk
    · have hstep := buildLevels_step hash l (by omega)
      have hlen := nextLevel_length hash l
      rw [hstep] at hk ⊢
      cases k with
      | zero => simp
      | succ k =>
        have := ih (nextLevel hash l) (by omega) (by omega) k (by simpa using hk)
        simpa using this

/-- The last stored level has exactly one digest. -/
theorem tree_last_length (hash : String → String) :
    (n : Nat) → (l : List String) → l.length ≤ n → 1 ≤ l.length →
      (((buildLevels hash l).getLastD l).length) = 1 := by
  intro n
  induction n with
  | zero => intro l hn h1; omega
  | succ n ih =>
    intro l hn h1
    by_cases hs : l.length ≤ 1
    · rw [buildLevels_small hash l hs]
      simp only [List.getLastD_nil]
      omega
    · have hstep := buildLevels_step hash l (by omega)
      have hlen := nextLevel_length hash l
      rw [hstep, List.getLastD_cons]
      exact ih (nextLevel hash l) (by omega) (by omega)

/-- Every level strictly below the last has two or more digests (the recursion only
continues while the current level has more than one). -/
theorem tree_inner_length (hash : String → String) :
    (n : Nat) → (l : List String) → l.length ≤ n → 1 ≤ l.length →
      (k : Nat) → k < (l :: buildLevels hash l).length - 1 →
        1 < ((l :: buildLevels hash l).getD k []).length := by
  intro n
  induction n with
  | zero => intro l hn h1 k hk; omega
  | succ n ih =>
    intro l hn h1 k hk
    by_cases hs : l.length ≤ 1
    · rw [buildLevels_small hash l hs] at hk
      simp at hk
    · have hstep := buildLevels_step hash l (by omega)
      have hlen := nextLevel_length hash l
      rw [hstep] at hk ⊢
      cases k with
      | zero => simpa using (by omega : 1 < l.length)
      | succ k =>
        have := ih (nextLevel hash l) (by omega) (by omega) k (by simpa using hk)
        simpa using this

/-- The number of levels above the leaf level is the ceiling base-2 logarithm of the
number of leaves. -/
theorem buildLevels_length (hash : String → String) :
    (n : Nat) → (l : List String) → l.length ≤ n → 1 ≤ l.length →
      (buildLevels hash l).length = Nat.clog 2 l.length := by
  intro n
  induction n with
  | zero => intro l hn h1; omega
  | succ n ih =>
    intro l hn h1
    by_cases hs : l.length ≤ 1
    · rw [buildLevels_small hash l hs, Nat.clog_of_right_le_one hs]
      rfl
    · have hstep := buildLevels_step hash l (by omega)
      have hlen := nextLevel_length hash l
      rw [hstep]
      have hrec := Nat.clog_of_two_le (b := 2) (n := l.length) (by omega) (by omega)
      have := ih (nextLevel hash l) (by omega) (by omega)
      simp only [List.length_cons, this]
      rw [hrec, hlen]
      rfl

/-- The hand-rolled fold of `verify_proof` is a left fold over the proof. -/
theorem verifyFold_eq_foldl (hash : String → String) :
    (proof : List (String × String)) → (cur : String) →
      verifyFold hash cur proof =
        proof.foldl (fun c p => hash (if p.1 = "left" then p.2 ++ c else c ++ p.2)) cur
  | [], _ => rfl
  | (pos, sib) :: rest, cur => by
    simp only [verifyFold, List.foldl_cons]
    exact verifyFold_eq_foldl hash rest _

theorem hashC_length (s : String) : (hashC s).length = s.length + 3 := by
  simp only [hashC, String.length_append]
  have h1 : ("H(" : String).length = 2 := rfl
  have h2 : (")" : String).length = 1 := rfl
  omega

/-- Length accounting for the fold under the concrete hash: every consumed proof element
grows the running digest. -/
theorem verifyFold_length_hashC :
    (proof : List (String × String)) → (cur : String) →
      (verifyFold hashC cur proof).length =
        cur.length + (proof.map (fun p => p.2.length + 3)).sum
  | [], cur => by simp [verifyFold]
  | (pos, sib) :: rest, cur => by
    simp only [verifyFold, List.map_cons, List.sum_cons]
    rw [verifyFold_length_hashC rest _]
    by_cases hp : pos = "left" <;> simp [hp, hashC_length, String.length_append] <;> omega

/-- Removing any element of a list strictly decreases the sum of a positive weight. -/
theorem sum_eraseIdx_lt (f : String × String → Nat) (hf : ∀ p, 0 < f p) :
    (P : List (String × String)) → (k : Nat) → k < P.length →
      ((P.eraseIdx k).map f).sum < (P.map f).sum
  | [], k, hk => by simp at hk
  | p :: rest, 0, _ => by
    simp only [List.eraseIdx_cons_zero, List.map_cons, List.sum_cons]
    have := hf p
    omega
  | p :: rest, k + 1, hk => by
    simp only [List.eraseIdx_cons_succ, List.map_cons, List.sum_cons]
    have := sum_eraseIdx_lt f hf rest k (by simpa using hk)
    omega

/-- Appending a duplicate of the unpaired last element of an odd-length level leaves the
pairing pass unchanged: the `right = left` branch of `build_tree` already hashed that
element with itself. -/
theorem nextLevel_append_dup (hash : String → String) :
    (m : List String) → (x : String) → m.length % 2 = 0 →
      nextLevel hash (m ++ [x, x]) = nextLevel hash (m ++ [x])
  | [], x, _ => rfl
  | [_], _, hm => by simp at hm
  | a :: b :: t, x, hm => by
    simp only [List.cons_append, nextLevel]
    exact congrArg (hash (a ++ b) :: ·) (nextLevel_append_dup hash t x
      (by simp only [List.length_cons] at hm; omega))

theorem half_eq_div2 : (n : Nat) → half n = n / 2
  | 0 => rfl
  | 1 => rfl
  | n + 2 => by
    simp only [half, half_eq_div2 n]
    omega

theorem isOdd_eq : (n : Nat) → isOdd n = decide (n % 2 = 1)
  | 0 => rfl
  | 1 => rfl
  | n + 2 => by
    simp only [isOdd, isOdd_eq n]
    congr 1
    simp only [eq_iff_iff]
    omega

theorem clog2Aux_fuel :
    (a : Nat) → (b : Nat) → (n : Nat) → n ≤ a → n ≤ b → clog2Aux a n = clog2Aux b n
  | 0, 0, _, _, _ => rfl
  | 0, _ + 1, n, ha, _ => by
    have : n = 0 := by omega
    simp [this, clog2Aux]
  | _ + 1, 0, n, _, hb => by
    have : n = 0 := by omega
    simp [this, clog2Aux]
  | a + 1, b + 1, n, ha, hb => by
    simp only [clog2Aux]
    by_cases h1 : n ≤ 1
    · simp [h1]
    · rw [if_neg h1, if_neg h1]
      have hh := half_eq_div2 (n + 1)
      rw [clog2Aux_fuel a b (half (n + 1)) (by omega) (by omega)]

/-- The executable ceiling logarithm agrees with Mathlib's `Nat.clog 2`. -/
theorem clog2_eq_clog (n : Nat) : clog2 n = Nat.clog 2 n := by
  induction n using Nat.strong_induction_on with
  | _ n ih =>
    by_cases h1 : n ≤ 1
    · unfold clog2
      cases hn : n with
      | zero => simp [clog2Aux, Nat.clog_of_right_le_one]
      | succ m =>
        have : m = 0 := by omega
        subst this
        simp [clog2Aux, Nat.clog_of_right_le_one]
    · unfold clog2
      obtain ⟨m, hm⟩ : ∃ m, n = m + 1 := ⟨n - 1, by omega⟩
      rw [hm]
      simp only [clog2Aux, if_neg (by omega : ¬m + 1 ≤ 1)]
      have hh := half_eq_div2 (m + 1 + 1)
      rw [clog2Aux_fuel m (half (m + 1 + 1)) (half (m + 1 + 1)) (by omega) (le_refl _)]
      have := ih (half (m + 1 + 1)) (by omega)
      unfold clog2 at this
      rw [this, Nat.clog_of_two_le (by omega : (1 : Nat) < 2) (by omega : 2 ≤ m + 1), hh]
      rfl

/-- C1.  The claimed open/verify round-trip fails on the code: for the committed leaves
["A", "B", "C"] and the in-range index 2, `verify_proof(leaves[2], get_proof(2))` returns
False (with the concrete injective hash).  `build_tree` hashes the unpaired last node
with itself, but `get_proof` emits no proof entry for a level where the sibling index is
out of bounds, so the verifier never applies that hashing step and the recomputed digest
misses the root. -/
theorem c1_roundtrip_fails_on_odd :
    verifyProof hashC (mkTree hashC ["A", "B", "C"]) "C"
      (getProof (mkTree hashC ["A", "B", "C"]) 2) = false := by rfl

/-- C2.  The proof generated for the last (unpaired) position of the odd level does not
use the duplicate-last-node rule: for leaves ["A", "B", "C"] and index 2, the proof holds
only the level-1 sibling — no entry carries the node's own digest "H(C)" — and
verification of that last row with this proof fails. -/
theorem c2_unpaired_sibling_omitted :
    getProof (mkTree hashC ["A", "B", "C"]) 2 = [("left", "H(H(A)H(B))")] ∧
      verifyProof hashC (mkTree hashC ["A", "B", "C"]) "C" [("left", "H(H(A)H(B))")] = false :=
  ⟨by rfl, by rfl⟩

/-- C4.  `verify_proof` computes `hash(leaf)`, folds the proof in order (a sibling marked
"left" is prepended, anything else appended, before rehashing), and returns true exactly
when the final digest equals the tree's root. -/
theorem c4_verify_fold_characterization (hash : String → String)
    (t : List (List String)) (leaf : String) (proof : List (String × String)) :
    verifyProof hash t leaf proof = true ↔
      proof.foldl (fun c p => hash (if p.1 = "left" then p.2 ++ c else c ++ p.2))
        (hash leaf) = getRoot t := by
  unfold verifyProof
  rw [verifyFold_eq_foldl]
  exact beq_iff_eq

/-- C9.  A commitment over exactly one leaf: the root is that leaf's digest, the proof
for index 0 is empty, and the leaf verifies with the empty proof. -/
theorem c9_single_leaf (hash : String → String) (leaf : String) :
    getRoot (mkTree hash [leaf]) = hash leaf ∧
      getProof (mkTree hash [leaf]) 0 = [] ∧
      verifyProof hash (mkTree hash [leaf]) leaf [] = true := by
  have ht : mkTree hash [leaf] = [[hash leaf]] := by
    unfold mkTree mkLeaves
    rw [buildLevels_small hash _ (by simp)]
    simp
  refine ⟨?_, ?_, ?_⟩
  · rw [ht]; rfl
  · rw [getProof, ht]; rfl
  · unfold verifyProof verifyFold
    rw [ht]
    simp [getRoot]

/-- C10.  The duplicate-last-node rule makes the commitment non-binding in the leaf
count: for any leaf list of odd length at least 3 (written M ++ [x] with M of even
length at least 2), appending the last leaf again yields a byte-identical root. -/
theorem c10_root_not_binding (hash : String → String) (M : List String) (x : String)
    (hodd : (M ++ [x]).length % 2 = 1) (h3 : 3 ≤ (M ++ [x]).length) :
    getRoot (mkTree hash (M ++ [x] ++ [x])) = getRoot (mkTree hash (M ++ [x])) := by
  have hM : M.length % 2 = 0 := by simp at hodd ⊢; omega
  have hlen : (M ++ [x]).length = M.length + 1 := by simp
  have l0eq : mkLeaves hash (M ++ [x] ++ [x]) = M.map hash ++ [hash x, hash x] := by
    simp [mkLeaves]
  have l1eq : mkLeaves hash (M ++ [x]) = M.map hash ++ [hash x] := by
    simp [mkLeaves]
  have hMm : (M.map hash).length % 2 = 0 := by simpa using hM
  have hnext : nextLevel hash (mkLeaves hash (M ++ [x] ++ [x])) =
      nextLevel hash (mkLeaves hash (M ++ [x])) := by
    rw [l0eq, l1eq]
    exact nextLevel_append_dup hash (M.map hash) (hash x) hMm
  have hlen0 : (mkLeaves hash (M ++ [x])).length = M.length + 1 := by simp [mkLeaves]
  have hlen0d : (mkLeaves hash (M ++ [x] ++ [x])).length = M.length + 2 := by
    simp [mkLeaves]
  have hBd : buildLevels hash (mkLeaves hash (M ++ [x] ++ [x])) =
      nextLevel hash (mkLeaves hash (M ++ [x])) ::
        buildLevels hash (nextLevel hash (mkLeaves hash (M ++ [x]))) := by
    rw [buildLevels_step hash _ (by omega), hnext]
  have hB : buildLevels hash (mkLeaves hash (M ++ [x])) =
      nextLevel hash (mkLeaves hash (M ++ [x])) ::
        buildLevels hash (nextLevel hash (mkLeaves hash (M ++ [x]))) :=
    buildLevels_step hash _ (by simp at h3 ⊢; omega)
  unfold mkTree getRoot
  rw [hBd, hB]
  simp [List.getLastD_cons]

/-- C10 witness at leaves ["A", "B", "C"] with the concrete hash. -/
theorem c10_root_not_binding_witness :
    getRoot (mkTree hashC ["A", "B", "C", "C"]) = getRoot (mkTree hashC ["A", "B", "C"]) :=
  c10_root_not_binding hashC ["A", "B"] "C" (by decide) (by decide)

/-- C5.  Level-shape invariants of the constructed tree, for every nonempty leaf list:
each level is `ceil` of half the one below it (in Nat, `ceil(m/2) = (m+1)/2`); the
topmost stored level holds exactly one digest while every level below it holds more
than one (so construction stops exactly at the first one-digest level); and the number
of levels above level 0 is `ceil(log2(number of leaves))`, i.e. `Nat.clog 2`, which is
0 for a single leaf. -/
theorem c5_level_invariants (hash : String → String) (leaves : List String)
    (h1 : 1 ≤ leaves.length) :
    (∀ k, k + 1 < (mkTree hash leaves).length →
      ((mkTree hash leaves).getD (k + 1) []).length =
        (((mkTree hash leaves).getD k []).length + 1) / 2) ∧
    ((mkTree hash leaves).getLastD []).length = 1 ∧
    (∀ k, k < (mkTree hash leaves).length - 1 →
      1 < ((mkTree hash leaves).getD k []).length) ∧
    (mkTree hash leaves).length - 1 = Nat.clog 2 leaves.length := by
  have hlen : (mkLeaves hash leaves).length = leaves.length := by simp [mkLeaves]
  refine ⟨?_, ?_, ?_, ?_⟩
  · intro k hk
    rw [mkTree] at hk ⊢
    rw [tree_chain hash (mkLeaves hash leaves).length (mkLeaves hash leaves)
      (le_refl _) (by omega) k hk]
    exact nextLevel_length hash _
  · rw [mkTree, List.getLastD_cons]
    exact tree_last_length hash (mkLeaves hash leaves).length _ (le_refl _) (by omega)
  · intro k hk
    rw [mkTree] at hk ⊢
    exact tree_inner_length hash (mkLeaves hash leaves).length _ (le_refl _) (by omega) k hk
  · rw [mkTree]
    simp only [List.length_cons, Nat.add_sub_cancel]
    rw [buildLevels_length hash (mkLeaves hash leaves).length _ (le_refl _) (by omega), hlen]

/-- C5 witness at leaves ["A", "B", "C"] with the concrete hash. -/
theorem c5_level_invariants_witness :
    (∀ k, k + 1 < (mkTree hashC ["A", "B", "C"]).length →
      ((mkTree hashC ["A", "B", "C"]).getD (k + 1) []).length =
        (((mkTree hashC ["A", "B", "C"]).getD k []).length + 1) / 2) ∧
    ((mkTree hashC ["A", "B", "C"]).getLastD []).length = 1 ∧
    (∀ k, k < (mkTree hashC ["A", "B", "C"]).length - 1 →
      1 < ((mkTree hashC ["A", "B", "C"]).getD k []).length) ∧
    (mkTree hashC ["A", "B", "C"]).length - 1 = Nat.clog 2 (["A", "B", "C"] : List String).length :=
  c5_level_invariants hashC ["A", "B", "C"] (by decide)

/-- C3 counterexample.  `verify_proof` does not validate proof length: against the
4-leaf tree (structural depth 2, so every honest proof has two elements) it accepts a
one-element proof for the crafted leaf "H(A)H(B)" — the concatenation of the two
level-0 digests — because the fold still reaches the root.  Nothing is rejected before
hashing. -/
theorem c3_short_proof_accepted :
    verifyProof hashC (mkTree hashC ["A", "B", "C", "D"]) ("H(A)" ++ "H(B)")
        [("right", "H(H(C)H(D))")] = true ∧
      ([(("right" : String), ("H(H(C)H(D))" : String))].length ≠
        (mkTree hashC ["A", "B", "C", "D"]).length - 1) :=
  ⟨by rfl, by decide⟩

/-- C3 as amended.  `verify_proof` has no length validation and accepts exactly the
proofs whose fold reaches the root, so a wrong-length proof can be accepted for a
crafted leaf; what does hold is that removing any one element from an accepted proof
makes verification return false — under the concrete length-increasing hash the
recomputed digest becomes strictly shorter than the root. -/
theorem c3_erase_rejected (t : List (List String)) (leaf : String)
    (proof : List (String × String)) (k : Nat)
    (hacc : verifyProof hashC t leaf proof = true) (hk : k < proof.length) :
    verifyProof hashC t leaf (proof.eraseIdx k) = false := by
  unfold verifyProof at hacc ⊢
  rw [beq_iff_eq] at hacc
  rw [beq_eq_false_iff_ne]
  intro heq
  have h1 := verifyFold_length_hashC proof (hashC leaf)
  have h2 := verifyFold_length_hashC (proof.eraseIdx k) (hashC leaf)
  have h3 := sum_eraseIdx_lt (fun p => p.2.length + 3)
    (fun p => by show 0 < p.2.length + 3; omega) proof k hk
  rw [hacc] at h1
  rw [heq] at h2
  omega

/-- C3 witness: the honest two-element proof for leaf "B" in the 4-leaf tree verifies,
and the same proof with its first element removed is rejected. -/
theorem c3_erase_rejected_witness :
    verifyProof hashC (mkTree hashC ["A", "B", "C", "D"]) "B"
        [("left", "H(A)"), ("right", "H(H(C)H(D))")] = true ∧
      verifyProof hashC (mkTree hashC ["A", "B", "C", "D"]) "B"
        ([(("left" : String), ("H(A)" : String)),
          ("right", "H(H(C)H(D))")].eraseIdx 0) = false :=
  ⟨by rfl, c3_erase_rejected (mkTree hashC ["A", "B", "C", "D"]) "B"
    [("left", "H(A)"), ("right", "H(H(C)H(D))")] 0 (by rfl) (by decide)⟩

/-- Auxiliary fact for C7: `build_tree` on the empty level never returns, whatever the
recursion budget — the guard is `len == 1`, and pairing the empty level yields the empty
level again. -/
theorem buildLevelsF_nil (hash : String → String) :
    (fuel : Nat) → buildLevelsF hash fuel [] = none
  | 0 => rfl
  | fuel + 1 => by
    simp only [buildLevelsF, List.length_nil]
    rw [if_neg (by omega)]
    show (match buildLevelsF hash fuel [] with
      | none => none
      | some rest => some (nextLevel hash [] :: rest)) = none
    rw [buildLevelsF_nil hash fuel]

/-- C7 counterexample.  Constructing the tree over zero rows does not fail with a
designated error: with the concrete hash and a recursion budget of 1000 (CPython's
default recursion limit, far beyond what any terminating construction needs),
`build_tree([])` still has no result — the recursion never returns (a RecursionError
crash in CPython), so no commitment and no synchronous `EmptyMatrix` failure is ever
produced. -/
theorem c7_empty_diverges_counterexample : mkTreeF hashC 1000 [] = none := by
  unfold mkTreeF
  rw [show mkLeaves hashC [] = [] from rfl, buildLevelsF_nil hashC 1000]
  rfl

/-- C7 as amended.  For every hash function and every recursion budget, committing an
empty leaf list diverges (`build_tree` recurses forever on the empty level) instead of
signaling `EmptyMatrix`; no `EmptyBatch` path exists either, since batch commitment is
not implemented in the source. -/
theorem c7_empty_diverges (hash : String → String) :
    ∀ fuel : Nat, mkTreeF hash fuel [] = none := by
  intro fuel
  unfold mkTreeF
  rw [show mkLeaves hash [] = [] from rfl, buildLevelsF_nil hash fuel]
  rfl

/-- C8 counterexample.  `get_proof` performs no range check and raises nothing (every
list subscript in its loop is guarded): for the 4-leaf tree, the out-of-range index 5
silently yields the empty proof list instead of an `IndexOutOfRange` failure. -/
theorem c8_out_of_range_returns :
    getProof (mkTree hashC ["A", "B", "C", "D"]) 5 = [] := by rfl

/-- C8 as amended.  `get_proof` does not range-check the leaf index: on the 4-leaf tree
every index outside [0, 4) returns normally — with the empty proof list, since each
level's sibling test fails — rather than signaling `IndexOutOfRange`. -/
theorem c8_no_bounds_check (i : Nat) (hi : 4 ≤ i) :
    getProof (mkTree hashC ["A", "B", "C", "D"]) i = [] := by
  have ht : mkTree hashC ["A", "B", "C", "D"] =
      [["H(A)", "H(B)", "H(C)", "H(D)"], ["H(H(A)H(B))", "H(H(C)H(D))"],
        ["H(H(H(A)H(B))H(H(C)H(D)))"]] := by rfl
  rw [getProof, ht]
  simp only [getProofLoop, List.length_cons, List.length_nil]
  rw [if_neg (by split <;> omega), if_neg (by split <;> omega)]
  rfl

/-- C8 witness at index 4. -/
theorem c8_no_bounds_check_witness :
    4 ≤ 4 ∧ getProof (mkTree hashC ["A", "B", "C", "D"]) 4 = [] :=
  ⟨by decide, c8_no_bounds_check 4 (by decide)⟩

theorem mmcsDescend_headD (hash : String → String) (batch : List (List String)) :
    (d : Nat) → (f : List String) → (mmcsDescend hash batch d f).headD [] = f
  | 0, _ => rfl
  | _ + 1, _ => rfl

theorem mmcsDescend_ne_nil (hash : String → String) (batch : List (List String)) :
    (d : Nat) → (f : List String) → mmcsDescend hash batch d f ≠ []
  | 0, _ => by simp [mmcsDescend]
  | _ + 1, _ => by simp [mmcsDescend]

theorem mmcsDescend_length (hash : String → String) (batch : List (List String)) :
    (d : Nat) → (f : List String) → (mmcsDescend hash batch d f).length = d + 1
  | 0, _ => rfl
  | d + 1, f => by
    simp only [mmcsDescend, List.length_cons, mmcsDescend_length hash batch d]

theorem headD_append_ne_nil {α : Type} :
    (D : List α) → (T : List α) → (d : α) → D ≠ [] → (D ++ T).headD d = D.headD d
  | [], _, _, h => absurd rfl h
  | _ :: _, _, _, _ => rfl

theorem getLastD_indep {α : Type} :
    (D : List α) → (a b : α) → D ≠ [] → D.getLastD a = D.getLastD b
  | [], _, _, h => absurd rfl h
  | c :: D, a, b, _ => by rw [List.getLastD_cons, List.getLastD_cons]

theorem getLastD_append_cons {α : Type} :
    (D : List α) → (x : α) → (B : List α) → (a b : α) →
      (D ++ x :: B).getLastD a = (x :: B).getLastD b
  | [], x, B, a, b => by rw [List.nil_append, List.getLastD_cons, List.getLastD_cons]
  | c :: D, x, B, a, b => by
    rw [List.cons_append, List.getLastD_cons]
    exact getLastD_append_cons D x B c b

/-- Introduction rule for the chain invariant that does not need the upper levels in
constructor form. -/
theorem chainI_cons (hash : String → String) (cur : List String)
    (L : List (List String)) (offs : List Nat)
    (hhead : ∃ inj, L.headD [] = inj ++ nextLevel hash cur ∧ offs.headD 0 = inj.length)
    (hL : L ≠ []) (htail : ChainI hash L offs.tail) : ChainI hash (cur :: L) offs := by
  cases L with
  | nil => exact absurd rfl hL
  | cons next rest => exact ⟨by simpa using hhead, htail⟩

/-- The plain collapse (`build_tree` passes) is a chain with no injections. -/
theorem chainI_buildLevels (hash : String → String) :
    ∀ n (l : List String), l.length ≤ n → ChainI hash (l :: buildLevels hash l) [] := by
  intro n
  induction n with
  | zero =>
    intro l h
    rw [buildLevels_small hash l (by omega)]
    exact trivial
  | succ n ih =>
    intro l h
    by_cases hs : l.length ≤ 1
    · rw [buildLevels_small hash l hs]
      exact trivial
    · rw [buildLevels_step hash l (by omega)]
      refine ⟨⟨[], by simp, by simp⟩, ?_⟩
      have hlen := nextLevel_length hash l
      exact ih (nextLevel hash l) (by omega)

/-- The descent plus the final collapse is a chain whose offsets are the injection
sizes, one per ascent of the descent, nothing afterwards. -/
theorem chainI_descend (hash : String → String) (batch : List (List String)) :
    (d : Nat) → (f : List String) → 1 ≤ f.length →
      ChainI hash (mmcsDescend hash batch d f ++
          buildLevels hash ((mmcsDescend hash batch d f).getLastD []))
        (mmcsOffsetsAux hash batch d)
  | 0, f, hf => by
    simp only [mmcsDescend, mmcsOffsetsAux]
    have h1 : ([f] : List (List String)).getLastD [] = f := by
      rw [List.getLastD_cons]
      rfl
    rw [h1, List.singleton_append]
    exact chainI_buildLevels hash f.length f (le_refl _)
  | d + 1, f, hf => by
    simp only [mmcsDescend, mmcsOffsetsAux]
    have hne := mmcsDescend_ne_nil hash batch d (injAt hash batch d ++ nextLevel hash f)
    have hlast : (f :: mmcsDescend hash batch d (injAt hash batch d ++ nextLevel hash f)).getLastD [] =
        (mmcsDescend hash batch d (injAt hash batch d ++ nextLevel hash f)).getLastD [] := by
      rw [List.getLastD_cons]
      exact getLastD_indep _ _ _ hne
    rw [hlast, List.cons_append]
    refine chainI_cons hash f _ _ ?_ ?_ ?_
    · refine ⟨injAt hash batch d, ?_, by simp⟩
      rw [headD_append_ne_nil _ _ _ hne, mmcsDescend_headD]
    · intro hDT
      exact hne (List.append_eq_nil.mp hDT).1
    · have hlen := nextLevel_length hash f
      exact chainI_descend hash batch d (injAt hash batch d ++ nextLevel hash f)
        (by simp only [List.length_append]; omega)

/-- The full merged structure is a chain (for any batch whose deepest injection is
nonempty). -/
theorem chainI_mmcsLevels (hash : String → String) (batch : List (List String))
    (h : 1 ≤ (injAt hash batch (mmcsMaxDepth batch)).length) :
    ChainI hash (mmcsLevels hash batch) (mmcsOffsets hash batch) := by
  simp only [mmcsLevels, mmcsOffsets]
  exact chainI_descend hash batch (mmcsMaxDepth batch) _ h

theorem chainI_drop (hash : String → String) :
    (L : List (List String)) → (offs : List Nat) → (n : Nat) →
      ChainI hash L offs → ChainI hash (L.drop n) (offs.drop n)
  | _, _, 0, h => h
  | [], offs, n + 1, _ => by
    simp only [List.drop_nil]
    exact trivial
  | [l], offs, n + 1, _ => by
    simp only [List.drop_succ_cons, List.drop_nil]
    exact trivial
  | cur :: next :: rest, offs, n + 1, h => by
    simp only [List.drop_succ_cons]
    have htail : ChainI hash (next :: rest) offs.tail := h.2
    have := chainI_drop hash (next :: rest) offs.tail n htail
    cases offs with
    | nil => simpa using this
    | cons o os => exact this

theorem headD_drop {α : Type} :
    (L : List α) → (n : Nat) → (d : α) → (L.drop n).headD d = L.getD n d
  | [], 0, _ => rfl
  | [], _ + 1, _ => rfl
  | _ :: _, 0, _ => rfl
  | _ :: L, n + 1, d => by
    simp only [List.drop_succ_cons, List.getD_cons_succ]
    exact headD_drop L n d

theorem getLastD_drop {α : Type} :
    (L : List α) → (n : Nat) → (d : α) → n < L.length → (L.drop n).getLastD d = L.getLastD d
  | _, 0, _, _ => rfl
  | [], n + 1, _, h => by simp at h
  | a :: L, n + 1, d, h => by
    simp only [List.drop_succ_cons]
    rw [getLastD_drop L n d (by simpa using h), List.getLastD_cons]
    cases L with
    | nil => simp at h
    | cons b M => rw [List.getLastD_cons, List.getLastD_cons]

/-- The spec's walker records exactly one sibling per level below the root, so the
proof length is the number of ascents. -/
theorem mmcsProofLoop_length :
    (levels : List (List String)) → (offs : List Nat) → (i : Nat) →
      (mmcsProofLoop levels offs i).length = levels.length - 1
  | [], _, _ => rfl
  | [_], _, _ => rfl
  | cur :: next :: rest, offs, i => by
    simp only [mmcsProofLoop, List.length_cons]
    rw [mmcsProofLoop_length (next :: rest) offs.tail _]
    simp

/-- Where one pairing pass puts each combination: the node at index `i` of a level feeds
the node at index `half i` of the pass above, combined with its left or right sibling, or
with itself when it is the unpaired last node. -/
theorem nextLevel_getD (hash : String → String) :
    (l : List String) → (i : Nat) → i < l.length →
      (nextLevel hash l).getD (half i) "" =
        if isOdd i then hash (l.getD (i - 1) "" ++ l.getD i "")
        else if i + 1 < l.length then hash (l.getD i "" ++ l.getD (i + 1) "")
        else hash (l.getD i "" ++ l.getD i "")
  | [], i, hi => by simp at hi
  | [a], i, hi => by
    have h0 : i = 0 := by simp at hi; omega
    subst h0
    simp [nextLevel, half, isOdd]
  | a :: b :: t, 0, hi => by
    simp [nextLevel, half, isOdd]
  | a :: b :: t, 1, hi => by
    simp [nextLevel, half, isOdd]
  | a :: b :: t, i + 2, hi => by
    have hlen : i < t.length := by simp at hi; omega
    have ih := nextLevel_getD hash t i hlen
    simp only [nextLevel, half, isOdd, List.getD_cons_succ]
    rw [ih]
    have hsub : i + 2 - 1 = i + 1 := by omega
    rw [hsub]
    by_cases hodd : isOdd i
    · have hi1 : 1 ≤ i := by
        rcases i with _ | j
        · simp [isOdd] at hodd
        · omega
      rw [if_pos hodd, if_pos hodd]
      have h1 : (a :: b :: t).getD (i + 1) "" = t.getD (i - 1) "" := by
        rcases i with _ | j
        · omega
        · simp only [List.getD_cons_succ]
          rfl
      rw [h1]
    · rw [if_neg hodd, if_neg hodd]
      by_cases hc : i + 1 < t.length
      · rw [if_pos hc, if_pos (by simp; omega : i + 2 + 1 < (a :: b :: t).length)]
      · rw [if_neg hc, if_neg (by simp; omega : ¬i + 2 + 1 < (a :: b :: t).length)]

/-- Round-trip of the spec's walker (spec sections 4.4 and 4.5): over any chained level
structure whose top level is a single digest, folding the recorded siblings from any
in-range position of the bottom level reproduces the top digest. -/
theorem mmcsProofLoop_roundtrip (hash : String → String) :
    (levels : List (List String)) → (offs : List Nat) → (i : Nat) →
      ChainI hash levels offs → i < (levels.headD []).length →
      ((levels.getLastD []).length = 1) →
      verifyFold hash ((levels.headD []).getD i "") (mmcsProofLoop levels offs i) =
        (levels.getLastD []).headD ""
  | [], _, i, _, hi, _ => by simp at hi
  | [l], _, i, _, hi, hlast => by
    simp only [List.headD_cons] at hi
    have hl1 : (([l] : List (List String)).getLastD []) = l := by
      rw [List.getLastD_cons]
      rfl
    rw [hl1] at hlast
    have h0 : i = 0 := by omega
    subst h0
    simp only [mmcsProofLoop, verifyFold, List.headD_cons, hl1]
    cases l with
    | nil => simp at hlast
    | cons x xs => rfl
  | cur :: next :: rest, offs, i, hchain, hi, hlast => by
    obtain ⟨⟨inj, hnext, hoffs⟩, hchainT⟩ := hchain
    simp only [List.headD_cons] at hi
    have hlast2 : ((next :: rest).getLastD []).length = 1 := by
      rw [List.getLastD_cons, List.getLastD_cons] at hlast
      rw [List.getLastD_cons]
      exact hlast
    have hroot : ((cur :: next :: rest).getLastD []).headD "" =
        ((next :: rest).getLastD []).headD "" := by
      rw [List.getLastD_cons, List.getLastD_cons, List.getLastD_cons]
    have hnl := nextLevel_length hash cur
    have hhalf : half i < (nextLevel hash cur).length := by
      rw [half_eq_div2, hnl]
      omega
    have hbound : offs.headD 0 + half i < next.length := by
      rw [hnext, List.length_append, hoffs]
      omega
    have ih := mmcsProofLoop_roundtrip hash (next :: rest) offs.tail
      (offs.headD 0 + half i) hchainT (by simpa using hbound) hlast2
    simp only [List.headD_cons] at ih
    have hkey : next.getD (offs.headD 0 + half i) "" =
        (nextLevel hash cur).getD (half i) "" := by
      rw [hnext, hoffs, List.getD_append_right _ _ _ _ (by omega)]
      congr 1
      omega
    rw [hroot, ← ih]
    simp only [mmcsProofLoop]
    rw [hkey, nextLevel_getD hash cur i hi]
    simp only [List.headD_cons]
    by_cases hodd : isOdd i
    · have hi1 : i % 2 = 1 := by
        rw [isOdd_eq] at hodd
        simpa using hodd
      have hsib : i - 1 < cur.length := by omega
      simp only [hodd, eq_self_iff_true, if_true]
      rw [if_pos hsib]
      simp [verifyFold]
    · have hodd2 : isOdd i = false := by simpa using hodd
      simp only [hodd2, Bool.false_eq_true, if_false]
      by_cases hc : i + 1 < cur.length
      · rw [if_pos hc, if_pos hc]
        simp [verifyFold]
      · rw [if_neg hc, if_neg hc]
        simp [verifyFold]

/-- The merged structure always ends in a single digest, provided the descent bottoms
out in a nonempty level: the final collapse runs until one digest remains. -/
theorem mmcsLevels_last_len (hash : String → String) (batch : List (List String))
    (h : 1 ≤ ((mmcsDescend hash batch (mmcsMaxDepth batch)
        (injAt hash batch (mmcsMaxDepth batch))).getLastD []).length) :
    ((mmcsLevels hash batch).getLastD []).length = 1 := by
  simp only [mmcsLevels]
  generalize hD : mmcsDescend hash batch (mmcsMaxDepth batch)
    (injAt hash batch (mmcsMaxDepth batch)) = D at h ⊢
  by_cases hs : (D.getLastD []).length ≤ 1
  · rw [buildLevels_small hash _ hs, List.append_nil]
    omega
  · rw [buildLevels_step hash _ (by omega)]
    rw [getLastD_append_cons D _ _ [] [], List.getLastD_cons]
    have hnl := nextLevel_length hash (D.getLastD [])
    exact tree_last_length hash (nextLevel hash (D.getLastD [])).length _ (le_refl _)
      (by omega)

set_option maxHeartbeats 1000000 in
/-- C6.  Spec-modelled MMCS over a batch of heights {8, 4, 4}: the commitment ends in a
single root; opening row 2 of the first height-4 matrix walks strictly fewer levels than
opening row 1 of the height-8 matrix; and both openings verify (including the expected-
length check) against that same root.  Universally quantified over the hash function and
all row contents. -/
theorem c6_mixed_batch (hash : String → String) (r : Fin 8 → String) (s t : Fin 4 → String) :
    ((mmcsLevels hash (demoBatch r s t)).getLastD []).length = 1 ∧
      (mmcsOpen hash (demoBatch r s t) 1 2).length <
        (mmcsOpen hash (demoBatch r s t) 0 1).length ∧
      mmcsVerify hash (getRoot (mmcsLevels hash (demoBatch r s t)))
        (mmcsExpectedLen hash (demoBatch r s t) 0) (r 1)
        (mmcsOpen hash (demoBatch r s t) 0 1) = true ∧
      mmcsVerify hash (getRoot (mmcsLevels hash (demoBatch r s t)))
        (mmcsExpectedLen hash (demoBatch r s t) 1) (s 2)
        (mmcsOpen hash (demoBatch r s t) 1 2) = true := by
  have hd : mmcsMaxDepth (demoBatch r s t) = 3 := rfl
  have hD3 : ((mmcsDescend hash (demoBatch r s t) 3
      (injAt hash (demoBatch r s t) 3)).getLastD []).length = 3 := rfl
  have hinj3len : (injAt hash (demoBatch r s t) 3).length = 8 := rfl
  have hclog3 : Nat.clog 2 3 = 2 := by
    rw [Nat.clog_of_two_le (by omega) (by omega : 2 ≤ 3)]
    rw [show (3 + 2 - 1) / 2 = 2 by omega]
    rw [Nat.clog_of_two_le (by omega) (by omega : 2 ≤ 2)]
    rw [show (2 + 2 - 1) / 2 = 1 by omega]
    rw [Nat.clog_one_right]
  have hsingle : ((mmcsLevels hash (demoBatch r s t)).getLastD []).length = 1 := by
    refine mmcsLevels_last_len hash (demoBatch r s t) ?_
    rw [hd, hD3]
    omega
  have hlen6 : (mmcsLevels hash (demoBatch r s t)).length = 6 := by
    simp only [mmcsLevels]
    rw [hd, List.length_append, mmcsDescend_length]
    rw [buildLevels_length hash ((mmcsDescend hash (demoBatch r s t) 3
      (injAt hash (demoBatch r s t) 3)).getLastD []).length _ (le_refl _) (by rw [hD3]; omega)]
    rw [hD3, hclog3]
  have hcl0 : clog2 (((demoBatch r s t).getD 0 []).length) = 3 := rfl
  have hcl1 : clog2 (((demoBatch r s t).getD 1 []).length) = 2 := rfl
  have hopen0 : mmcsOpen hash (demoBatch r s t) 0 1 =
      mmcsProofLoop (mmcsLevels hash (demoBatch r s t))
        (mmcsOffsets hash (demoBatch r s t)) 1 := rfl
  have hopen1 : mmcsOpen hash (demoBatch r s t) 1 2 =
      mmcsProofLoop ((mmcsLevels hash (demoBatch r s t)).drop 1)
        ((mmcsOffsets hash (demoBatch r s t)).drop 1) 2 := rfl
  have hchain : ChainI hash (mmcsLevels hash (demoBatch r s t))
      (mmcsOffsets hash (demoBatch r s t)) := by
    refine chainI_mmcsLevels hash (demoBatch r s t) ?_
    rw [hd, hinj3len]
    omega
  have hhead0 : (mmcsLevels hash (demoBatch r s t)).headD [] =
      injAt hash (demoBatch r s t) 3 := by
    simp only [mmcsLevels]
    rw [hd]
    rfl
  have hlev1 : (mmcsLevels hash (demoBatch r s t)).getD 1 [] =
      injAt hash (demoBatch r s t) 2 ++
        nextLevel hash (injAt hash (demoBatch r s t) 3) := by
    simp only [mmcsLevels]
    rw [hd]
    rfl
  have hleaf0 : (injAt hash (demoBatch r s t) 3).getD 1 "" = hash (r 1) := rfl
  have hleaf1 : (injAt hash (demoBatch r s t) 2 ++
      nextLevel hash (injAt hash (demoBatch r s t) 3)).getD 2 "" = hash (s 2) := rfl
  have hlen12 : (injAt hash (demoBatch r s t) 2 ++
      nextLevel hash (injAt hash (demoBatch r s t) 3)).length = 12 := rfl
  have E0 := mmcsProofLoop_roundtrip hash (mmcsLevels hash (demoBatch r s t))
    (mmcsOffsets hash (demoBatch r s t)) 1 hchain
    (by rw [hhead0, hinj3len]; omega) hsingle
  rw [hhead0, hleaf0] at E0
  have E1 := mmcsProofLoop_roundtrip hash ((mmcsLevels hash (demoBatch r s t)).drop 1)
    ((mmcsOffsets hash (demoBatch r s t)).drop 1) 2
    (chainI_drop hash _ _ 1 hchain)
    (by rw [headD_drop, hlev1, hlen12]; omega)
    (by rw [getLastD_drop (mmcsLevels hash (demoBatch r s t)) 1 [] (by rw [hlen6]; omega)]
        exact hsingle)
  rw [headD_drop, hlev1, hleaf1,
    getLastD_drop (mmcsLevels hash (demoBatch r s t)) 1 [] (by rw [hlen6]; omega)] at E1
  refine ⟨hsingle, ?_, ?_, ?_⟩
  · rw [hopen0, hopen1, mmcsProofLoop_length, mmcsProofLoop_length,
      List.length_drop, hlen6]
    omega
  · simp only [mmcsVerify]
    rw [hopen0, Bool.and_eq_true]
    constructor
    · rw [mmcsProofLoop_length, hlen6]
      simp only [mmcsExpectedLen]
      rw [hd, hcl0, hlen6]
      decide
    · rw [beq_iff_eq, E0]
      rfl
  · simp only [mmcsVerify]
    rw [hopen1, Bool.and_eq_true]
    constructor
    · rw [mmcsProofLoop_length, List.length_drop, hlen6]
      simp only [mmcsExpectedLen]
      rw [hd, hcl1, hlen6]
      decide
    · rw [beq_iff_eq, E1]
      rfl

end MerkleNotebook
